import Mathlib

/-!
Verification of the array-remapping, rasterization and geometry-hashing
utilities of `geetiles/utils.py`.

Modelling conventions used throughout this development:

* numpy arrays are modelled as Lean lists; every numpy operation the code
  performs on them (`zeros_like`, `ones_like`, boolean-mask assignment,
  elementwise comparison) is pointwise, so an n-dimensional array is
  faithfully represented by the flat list of its cells.
* Python floats are modelled as rationals (`ℚ`); integer codes as `ℤ`.
* Python `dict`s (insertion ordered, unique keys) are modelled as
  association lists `List (ℤ × ℤ)` in insertion order.
* a Python function that can `raise` is modelled with `Except String`.
-/

namespace Geetiles

/-! ## RangeMapper: `apply_range_map` (utils.py lines 185-217)

The source first runs `np.r_[range_map]`; the result is either a 1-D array
of scalars (numeric or not) or an array of 2 or more dimensions.  We model
that result directly: `RMScalar` is one scalar cell of the 1-D case
(`astype(float)` succeeds exactly on the numeric ones), `RangeMapArr.multiD`
is the ≥ 2-dimensional case. -/

/-- One scalar entry of a 1-dimensional `range_map`: a numeric value, or a
non-numeric value (e.g. a string) on which `astype(float)` fails. -/
inductive RMScalar
  | num (q : ℚ)
  | nonNum (s : String)
  deriving DecidableEq, Repr

/-- The result of `np.r_[range_map]`: a 1-D array of scalars, or an array
with two or more dimensions (`len(range_map.shape) != 1`). -/
inductive RangeMapArr
  | oneD (elems : List RMScalar)
  | multiD (rows : List (List RMScalar))
  deriving DecidableEq, Repr

/-- Conversion `range_map.astype(float)`: succeeds iff every entry is numeric. -/
def asFloats : List RMScalar → Option (List ℚ)
  | [] => some []
  | .num q :: rest => (asFloats rest).map (fun l => q :: l)
  | .nonNum _ :: _ => none

/-- The check `np.alltrue(range_map[1:] - range_map[:-1] > 0)`: every adjacent
difference is positive. -/
def strictlyIncreasingB : List ℚ → Bool
  | [] => true
  | [_] => true
  | a :: b :: rest => decide (b - a > 0) && strictlyIncreasingB (b :: rest)

/-- Effect of the assignment loop of `apply_range_map` on one cell `x`,
processing the breakpoints in order.  `i` is the class value written by the
current breakpoint (the Python loop writes `i+1` at 0-based index `i`, so
the recursion starts at `i = 1`); `acc` is the value currently stored in
the output cell (initially 0 from `np.zeros_like`).  The last breakpoint
writes on `x >= b[n-1]`, every earlier one on `b[i] <= x < b[i+1]`, exactly
as in the source. -/
def goCell : List ℚ → ℤ → ℚ → ℤ → ℤ
  | [], _, _, acc => acc
  | [b], i, x, acc => if b ≤ x then i else acc
  | b :: b2 :: rest, i, x, acc =>
      goCell (b2 :: rest) (i + 1) x (if b ≤ x ∧ x < b2 then i else acc)

/-- The class the loop of `apply_range_map` assigns to the cell value `x`
for breakpoints `bs` (output buffer initialized by `np.zeros_like`). -/
def rangeCell (bs : List ℚ) (x : ℚ) : ℤ :=
  goCell bs 1 x 0

/-- Source function `apply_range_map(array, range_map)` (utils.py lines 185-217): validate
that the map is 1-dimensional, numeric and strictly increasing — raising
`ValueError` otherwise — then bucket every cell. -/
def apply_range_map (array : List ℚ) (range_map : RangeMapArr) :
    Except String (List ℤ) :=
  match range_map with
  | .multiD _ => .error "range_map must have one dimension"
  | .oneD elems =>
      match asFloats elems with
      | none => .error "range_map must be a list of floats"
      | some bs =>
          if strictlyIncreasingB bs then
            .ok (array.map (rangeCell bs))
          else
            .error "range_map must be a list or ordered floats with no repetitions"

/-- The validation predicate "the array has two or more dimensions". -/
def isMultiDim : RangeMapArr → Bool
  | .oneD _ => false
  | .multiD _ => true

/-- The validation predicate "`astype(float)` fails" (for a 1-D map). -/
def notAllFloats : RangeMapArr → Bool
  | .oneD elems => (asFloats elems).isNone
  | .multiD _ => false

/-- The validation predicate "numeric but not strictly increasing". -/
def notStrictIncr : RangeMapArr → Bool
  | .oneD elems =>
      match asFloats elems with
      | some bs => !(strictlyIncreasingB bs)
      | none => false
  | .multiD _ => false

/-! ## ValueMapper: `apply_value_map` (utils.py lines 138-183)

`value_map` is a Python list of ints or a dict of ints (the
`isinstance(_, int)` validations of the source reject anything else; the
claims under verification only exercise integer maps, so the embedding
takes `ℤ` entries, on which those checks pass by construction).  A dict is
an insertion-ordered association list with unique keys.  Because Python
dicts are mutable and the source executes `value_map[0] = 0` on the
caller's dict, the embedding returns the post-call state of the caller's
`value_map` argument alongside the freshly allocated result array. -/

/-- The `value_map` argument: a Python list of ints, or a dict of ints. -/
inductive ValueMapInput
  | list (l : List ℤ)
  | dict (d : List (ℤ × ℤ))
  deriving DecidableEq, Repr

/-- Keys of an association-list dict, in insertion order. -/
def keysOf (d : List (ℤ × ℤ)) : List ℤ := d.map Prod.fst

/-- Values of an association-list dict, in insertion order. -/
def valsOf (d : List (ℤ × ℤ)) : List ℤ := d.map Prod.snd

/-- Dict branch of `apply_value_map`: `if not 0 in value_map.keys() and
not 0 in value_map.values(): value_map[0] = 0` — on a Python dict, setting
an absent key appends it in iteration order. -/
def resolveDict (d : List (ℤ × ℤ)) : List (ℤ × ℤ) :=
  if (0 : ℤ) ∈ keysOf d ∨ (0 : ℤ) ∈ valsOf d then d else d ++ [(0, 0)]

/-- Python's `list(value_map.keys())[0]`.  Unreachable on `[]` in the source (the
resolved map is never empty there); the `0` default is never used. -/
def firstKey : List (ℤ × ℤ) → ℤ
  | [] => 0
  | (k, _) :: _ => k

/-- The resolution `if 0 in value_map.keys() and value_map[0] == 0: init_val = 0 else:
init_val = list(value_map.keys())[0]`.  On a Python dict (unique keys),
`0 in keys ∧ value_map[0] == 0` is exactly `lookup 0 = some 0`. -/
def initValOf (entries : List (ℤ × ℤ)) : ℤ :=
  if entries.lookup 0 = some 0 then 0 else firstKey entries

/-- Effect of the assignment loop of `apply_value_map` on one cell `x`:
`r = ones_like(array) * init_val`, then for each `(k, v)` in iteration
order, skip when `v == init_val`, else `r[array == k] = v`. -/
def valueMapCell (entries : List (ℤ × ℤ)) (ival : ℤ) (x : ℤ) : ℤ :=
  entries.foldl (fun c kv => if kv.2 = ival then c else if x = kv.1 then kv.2 else c)
    ival

/-- Remapping pass shared by both branches: pick `init_val`, fill the
output with it, then apply every map entry in iteration order. -/
def runValueMap (array : List ℤ) (entries : List (ℤ × ℤ)) : List ℤ :=
  array.map (valueMapCell entries (initValOf entries))

/-- List branch of `apply_value_map`: `sorted(value_map)`, prepend `0`
when absent, then `{i: value_map[i] for i in range(len(value_map))}`. -/
def listEntries (l : List ℤ) : List (ℤ × ℤ) :=
  let sl := l.insertionSort (· ≤ ·)
  let sl := if (0 : ℤ) ∈ sl then sl else 0 :: sl
  (List.range sl.length).map (fun (i : ℕ) => ((i : ℤ), sl.getD i 0))

/-- Source function `apply_value_map(array, value_map)` (utils.py lines 138-183).  Returns
the fresh result array together with the post-call state of the caller's
`value_map` argument (the list branch rebinds the local name only; the
dict branch mutates the caller's dict). -/
def apply_value_map (array : List ℤ) (value_map : ValueMapInput) :
    List ℤ × ValueMapInput :=
  match value_map with
  | .list l => (runValueMap array (listEntries l), .list l)
  | .dict d =>
      let d2 := resolveDict d
      (runValueMap array d2, .dict d2)

/-! ## Geometries and `get_binary_mask` (utils.py lines 64-95)

A shapely polygon is modelled by the coordinate sequence of its exterior
ring (`p.exterior.coords`); a geometry is a single polygon or a
multi-polygon (`'geoms' in dir(geometry)`). -/

/-- The exterior-ring coordinates of one polygon part. -/
abbrev Ring := List (ℚ × ℚ)

/-- A shapely geometry: one polygon, or a multi-part collection. -/
inductive Geometry
  | single (r : Ring)
  | multi (rs : List Ring)
  deriving DecidableEq, Repr

/-- The list `pols` of polygon parts of a geometry. -/
def geomParts : Geometry → List Ring
  | .single r => [r]
  | .multi rs => rs

/-- All exterior coordinates of all parts, concatenated
(`np.r_[[coord for p in pols for coord in p.exterior.coords]]`). -/
def allCoords (g : Geometry) : List (ℚ × ℚ) :=
  (geomParts g).flatMap id

/-- Minimum of a list of rationals (`np.min`); 0 on the empty list, which
the source never reaches (a polygon has coordinates). -/
def qmin : List ℚ → ℚ
  | [] => 0
  | [a] => a
  | a :: b :: r => min a (qmin (b :: r))

/-- Maximum of a list of rationals (`np.max`); 0 on the empty list. -/
def qmax : List ℚ → ℚ
  | [] => 0
  | [a] => a
  | a :: b :: r => max a (qmax (b :: r))

/-- Even–odd (ray casting) point-in-polygon test at point `(px, py)` for a
vertex list, used to decide which pixel centers a transformed polygon
covers.  One crossing is counted per edge that straddles the horizontal
through `py` with the intersection strictly right of `px`. -/
def edgeCrosses (px py x1 y1 x2 y2 : ℚ) : Bool :=
  (decide (y1 > py) != decide (y2 > py)) &&
    decide (px < x1 + (py - y1) * (x2 - x1) / (y2 - y1))

/-- Parity of crossings over the closing edge list of a ring. -/
def countCrossings (px py : ℚ) : List ((ℚ × ℚ) × (ℚ × ℚ)) → ℕ
  | [] => 0
  | (v1, v2) :: rest =>
      (if edgeCrosses px py v1.1 v1.2 v2.1 v2.2 then 1 else 0) +
        countCrossings px py rest

/-- The edges of a ring, each vertex joined to the next and the last back
to the first. -/
def ringEdges (p : Ring) : List ((ℚ × ℚ) × (ℚ × ℚ)) :=
  match p with
  | [] => []
  | v :: _ => p.zip (p.tail ++ [v])

/-- Point-in-polygon by even–odd rule. -/
def pointInPoly (p : Ring) (px py : ℚ) : Bool :=
  countCrossings px py (ringEdges p) % 2 == 1

/-- Modelled from the spec: `rasterio.features.rasterize(shapes, out_shape,
fill=0, default_value=1)` — the rasterization collaborator is outside this
repository.  Per its contract (spec §4.1 step 5) it returns a grid of the
given shape in which a cell is 1 when covered by at least one shape and 0
otherwise; overlaps burn 1 again rather than accumulate (replace, not
add).  Cell coverage is decided at the pixel center. -/
def rasterize (pols : List Ring) (h w : ℕ) : List (List ℕ) :=
  (List.range h).map (fun (i : ℕ) =>
    (List.range w).map (fun (j : ℕ) =>
      if pols.any (fun p => pointInPoly p ((j : ℚ) + 1/2) ((i : ℚ) + 1/2)) then 1
      else 0))

/-- Source function `get_binary_mask(geometry, raster_shape)` (utils.py lines 64-95):
normalize every part's coordinates to [0,1] with the bounding box shared
by all parts, flip the y axis, scale by `raster_shape[::-1]` (width first),
and rasterize onto a `raster_shape[:2]` grid. -/
def get_binary_mask (geometry : Geometry) (raster_shape : List ℕ) :
    List (List ℕ) :=
  let rs := raster_shape.take 2
  let pols := geomParts geometry
  let c := allCoords geometry
  let xmin := qmin (c.map Prod.fst)
  let xmax := qmax (c.map Prod.fst)
  let ymin := qmin (c.map Prod.snd)
  let ymax := qmax (c.map Prod.snd)
  let cpols := pols.map (List.map (fun pt =>
    ((pt.1 - xmin) / (xmax - xmin), (pt.2 - ymin) / (ymax - ymin))))
  let cpols := cpols.map (List.map (fun pt => (pt.1, 1 - pt.2)))
  let hgt := rs.getD 0 0
  let wid := rs.getD 1 0
  let cpols := cpols.map (List.map (fun pt => (pt.1 * (wid : ℚ), pt.2 * (hgt : ℚ))))
  rasterize cpols hgt wid

/-! ## SHA-256

`hashlib.sha256` modelled bit-for-bit (FIPS 180-4) on `Nat`, with 32-bit
words kept below `2^32` by explicit reduction. -/

/-- Reduce to a 32-bit word. -/
def w32 (n : ℕ) : ℕ := n % 4294967296

/-- Rotate a 32-bit word right by `n` bits. -/
def rotr32 (n x : ℕ) : ℕ := w32 ((x >>> n) ||| (x <<< (32 - n)))

/-- SHA-256 Σ₀. -/
def bigS0 (x : ℕ) : ℕ := rotr32 2 x ^^^ rotr32 13 x ^^^ rotr32 22 x

/-- SHA-256 Σ₁. -/
def bigS1 (x : ℕ) : ℕ := rotr32 6 x ^^^ rotr32 11 x ^^^ rotr32 25 x

/-- SHA-256 σ₀. -/
def smallS0 (x : ℕ) : ℕ := rotr32 7 x ^^^ rotr32 18 x ^^^ (x >>> 3)

/-- SHA-256 σ₁. -/
def smallS1 (x : ℕ) : ℕ := rotr32 17 x ^^^ rotr32 19 x ^^^ (x >>> 10)

/-- SHA-256 Ch. -/
def chFn (x y z : ℕ) : ℕ := (x &&& y) ^^^ ((x ^^^ 4294967295) &&& z)

/-- SHA-256 Maj. -/
def majFn (x y z : ℕ) : ℕ := (x &&& y) ^^^ (x &&& z) ^^^ (y &&& z)

/-- The 64 SHA-256 round constants (FIPS 180-4 §4.2.2, in decimal). -/
def k256 : List ℕ :=
  [1116352408, 1899447441, 3049323471, 3921009573, 961987163, 1508970993,
   2453635748, 2870763221, 3624381080, 310598401, 607225278, 1426881987,
   1925078388, 2162078206, 2614888103, 3248222580, 3835390401, 4022224774,
   264347078, 604807628, 770255983, 1249150122, 1555081692, 1996064986,
   2554220882, 2821834349, 2952996808, 3210313671, 3336571891, 3584528711,
   113926993, 338241895, 666307205, 773529912, 1294757372, 1396182291,
   1695183700, 1986661051, 2177026350, 2456956037, 2730485921, 2820302411,
   3259730800, 3345764771, 3516065817, 3600352804, 4094571909, 275423344,
   430227734, 506948616, 659060556, 883997877, 958139571, 1322822218,
   1537002063, 1747873779, 1955562222, 2024104815, 2227730452, 2361852424,
   2428436474, 2756734187, 3204031479, 3329325298]

/-- SHA-256 working state / hash value (eight 32-bit words). -/
structure H8 where
  a : ℕ
  b : ℕ
  c : ℕ
  d : ℕ
  e : ℕ
  f : ℕ
  g : ℕ
  hh : ℕ
  deriving DecidableEq, Repr

/-- SHA-256 initial hash value (FIPS 180-4 §5.3.3, in decimal). -/
def initH : H8 :=
  ⟨1779033703, 3144134277, 1013904242, 2773480762,
   1359893119, 2600822924, 528734635, 1541459225⟩

/-- Extend the message schedule `count` more times.  `ws` holds the words
produced so far, newest first, so `w[i-2]` is at index 1, `w[i-7]` at 6,
`w[i-15]` at 14 and `w[i-16]` at 15. -/
def schedLoop : ℕ → List ℕ → List ℕ
  | 0, ws => ws
  | n + 1, ws =>
      let x2 := ws.getD 1 0
      let x7 := ws.getD 6 0
      let x15 := ws.getD 14 0
      let x16 := ws.getD 15 0
      schedLoop n (w32 (smallS1 x2 + x7 + smallS0 x15 + x16) :: ws)

/-- The 64-word message schedule of one 16-word block. -/
def schedule (block : List ℕ) : List ℕ :=
  (schedLoop 48 block.reverse).reverse

/-- One SHA-256 compression round for the pair (round constant, schedule
word). -/
def roundStep (st : H8) (kw : ℕ × ℕ) : H8 :=
  let t1 := w32 (st.hh + bigS1 st.e + chFn st.e st.f st.g + kw.1 + kw.2)
  let t2 := w32 (bigS0 st.a + majFn st.a st.b st.c)
  ⟨w32 (t1 + t2), st.a, st.b, st.c, w32 (st.d + t1), st.e, st.f, st.g⟩

/-- Compress one 16-word block into the running hash value. -/
def compressBlock (hs : H8) (block : List ℕ) : H8 :=
  let st := (k256.zip (schedule block)).foldl roundStep hs
  ⟨w32 (hs.a + st.a), w32 (hs.b + st.b), w32 (hs.c + st.c), w32 (hs.d + st.d),
   w32 (hs.e + st.e), w32 (hs.f + st.f), w32 (hs.g + st.g), w32 (hs.hh + st.hh)⟩

/-- Four big-endian bytes to one 32-bit word, repeatedly. -/
def bytesToWords : List ℕ → List ℕ
  | b0 :: b1 :: b2 :: b3 :: rest =>
      (b0 * 16777216 + b1 * 65536 + b2 * 256 + b3) :: bytesToWords rest
  | _ => []

/-- The eight big-endian bytes of the 64-bit message bit length. -/
def lengthBytes (n : ℕ) : List ℕ :=
  [n / 2 ^ 56 % 256, n / 2 ^ 48 % 256, n / 2 ^ 40 % 256, n / 2 ^ 32 % 256,
   n / 2 ^ 24 % 256, n / 2 ^ 16 % 256, n / 2 ^ 8 % 256, n % 256]

/-- SHA-256 padding: append `0x80`, zeros to 56 mod 64, then the bit
length, making the length a multiple of 64 bytes. -/
def padMessage (msg : List ℕ) : List ℕ :=
  let L := msg.length
  msg ++ [128] ++ List.replicate ((120 - (L + 1) % 64) % 64) 0 ++
    lengthBytes (8 * L)

/-- Compress `fuel` 64-byte blocks taken from the front of `msg`. -/
def sha256Go : ℕ → H8 → List ℕ → H8
  | 0, hs, _ => hs
  | n + 1, hs, msg =>
      sha256Go n (compressBlock hs (bytesToWords (msg.take 64))) (msg.drop 64)

/-- The SHA-256 digest of a byte sequence, as the big-endian 256-bit
natural number that Python's `int(hexdigest, 16)` produces. -/
def sha256Nat (msg : List ℕ) : ℕ :=
  let padded := padMessage msg
  let st := sha256Go (padded.length / 64) initH padded
  ((((((st.a * 4294967296 + st.b) * 4294967296 + st.c) * 4294967296 + st.d) *
    4294967296 + st.e) * 4294967296 + st.f) * 4294967296 + st.g) *
    4294967296 + st.hh

/-- UTF-8 bytes of a string.  Every string hashed by this module is pure
ASCII, where the UTF-8 encoding is the code-point sequence itself. -/
def strBytes (s : String) : List ℕ := s.data.map Char.toNat

/-! ## GeometryHasher: `get_region_hash`, `get_regionlist_hash`
(utils.py lines 97-115) -/

/-- Floor of a rational, computed on its reduced numerator and
denominator. -/
def qfloor (q : ℚ) : ℤ := q.num.fdiv q.den

/-- Rounding `np.round` to an integer: round half to even (banker's rounding). -/
def roundHalfEven (q : ℚ) : ℤ :=
  let fl := qfloor q
  let frac := q - fl
  if frac < 1 / 2 then fl
  else if 1 / 2 < frac then fl + 1
  else if fl % 2 = 0 then fl else fl + 1

/-- A coordinate rounded to 5 decimal places, represented exactly by the
integer `round(10^5 * q)` (so `scale5 q / 10^5` is the rounded value). -/
def scale5 (q : ℚ) : ℤ := roundHalfEven (q * 100000)

/-- Shapely's `region.envelope.boundary.coords`: the envelope of a non-degenerate
geometry is the axis-aligned bounding box, whose boundary is the closed
counter-clockwise ring starting at the bottom-left corner. -/
def envelopeCoords (g : Geometry) : List (ℚ × ℚ) :=
  let c := allCoords g
  let xmin := qmin (c.map Prod.fst)
  let xmax := qmax (c.map Prod.fst)
  let ymin := qmin (c.map Prod.snd)
  let ymax := qmax (c.map Prod.snd)
  [(xmin, ymin), (xmax, ymin), (xmax, ymax), (xmin, ymax), (xmin, ymin)]

/-- The value `np.r_[region.envelope.boundary.coords].round(5)`: the envelope ring
with every coordinate rounded to 5 decimals (kept as 10^5-scaled
integers). -/
def roundedEnv (g : Geometry) : List (ℤ × ℤ) :=
  (envelopeCoords g).map (fun pt => (scale5 pt.1, scale5 pt.2))

/-- Python's `str(...)` of the rounded coordinate array: a fixed, deterministic
textual rendering of the rounded coordinate sequence.  numpy's exact
float formatting is abstracted to a rendering of the equivalent
10^5-scaled integers; every claim below depends only on the rendering
being a deterministic function of the rounded coordinates. -/
def renderCoords (l : List (ℤ × ℤ)) : String :=
  "[" ++
    String.intercalate " "
      (l.map (fun pr => "[" ++ toString pr.1 ++ " " ++ toString pr.2 ++ "]")) ++
    "]"

/-- One lowercase hexadecimal digit. -/
def hexDigit (n : ℕ) : Char :=
  if n < 10 then Char.ofNat (48 + n) else Char.ofNat (87 + n)

/-- The hexadecimal digits of a positive number, most significant first
(empty for 0), computed with an explicit fuel bound on the recursion
depth. -/
def toHexDigitsAux : ℕ → ℕ → List Char
  | 0, _ => []
  | fuel + 1, n =>
      if n = 0 then [] else toHexDigitsAux fuel (n / 16) ++ [hexDigit (n % 16)]

/-- The hexadecimal digits of a positive number, most significant first
(empty for 0); `n` itself always exceeds the number of digits, so it
serves as fuel. -/
def toHexDigits (n : ℕ) : List Char := toHexDigitsAux n n

/-- Python's `str(hex(k))[2:]` for `k ≥ 0`: lowercase hex digits, `"0"`
for zero. -/
def toHexStr (n : ℕ) : String :=
  if n = 0 then "0" else String.mk (toHexDigits n)

/-- Python's `str.zfill(13)`: left-pad with `'0'` to 13 characters. -/
def zfill13 (s : String) : String :=
  String.mk (List.replicate (13 - s.length) '0' ++ s.data)

/-- Source function `get_region_hash(region)` (utils.py lines 97-105): SHA-256 of the
rendered rounded envelope boundary, as an integer, modulo `10^15`, in
hexadecimal, left-padded with zeros to 13 characters. -/
def get_region_hash (region : Geometry) : String :=
  let s := renderCoords (roundedEnv region)
  let k := sha256Nat (strBytes s) % 10 ^ 15
  zfill13 (toHexStr k)

/-- Source function `get_regionlist_hash(regionlist)` (utils.py lines 107-115): the same
digest/mod/hex/pad procedure applied to the space-joined per-region
hashes. -/
def get_regionlist_hash (regionlist : List Geometry) : String :=
  let s := String.intercalate " " (regionlist.map get_region_hash)
  let k := sha256Nat (strBytes s) % 10 ^ 15
  zfill13 (toHexStr k)

/-- Modelled from the spec (§4.4 `hash_region_list`), for comparison with
the implementation: "compute `hash_region` for every geometry in the input
sequence in the given order, join the resulting strings with single-space
separators, then apply the same digest/mod/hex/pad procedure to that
joined string". -/
def hash_region_list_spec (geometries : List Geometry) : String :=
  let joined := String.intercalate " " (geometries.map get_region_hash)
  zfill13 (toHexStr (sha256Nat (strBytes joined) % 10 ^ 15))

/-- Translation of every coordinate of a geometry by `(tx, ty)`. -/
def translateGeom (g : Geometry) (tx ty : ℚ) : Geometry :=
  match g with
  | .single r => .single (r.map (fun pt => (pt.1 + tx, pt.2 + ty)))
  | .multi rs => .multi (rs.map (List.map (fun pt => (pt.1 + tx, pt.2 + ty))))

/-- A lowercase hexadecimal digit character. -/
def isLowerHexDigit (c : Char) : Bool :=
  "0123456789abcdef".data.contains c

/-! ## Lemmas about the RangeMapper -/

/-- The adjacent-difference check of the source accepts exactly the
chains of strictly increasing breakpoints. -/
lemma strictlyIncreasingB_iff_chain (bs : List ℚ) :
    strictlyIncreasingB bs = true ↔ bs.Chain' (· < ·) := by
  induction bs with
  | nil => simp [strictlyIncreasingB]
  | cons a rest ih =>
    cases rest with
    | nil => simp [strictlyIncreasingB]
    | cons b r2 =>
      rw [strictlyIncreasingB, Bool.and_eq_true, List.chain'_cons, ih,
        decide_eq_true_iff, gt_iff_lt, sub_pos]

/-- A strictly increasing breakpoint list is pairwise increasing. -/
lemma strictlyIncreasingB_pairwise (bs : List ℚ)
    (hinc : strictlyIncreasingB bs = true) : bs.Pairwise (· < ·) :=
  List.chain'_iff_pairwise.mp ((strictlyIncreasingB_iff_chain bs).mp hinc)

/-- On a pairwise increasing breakpoint list, the assignment loop leaves
the initial cell value when no breakpoint is `≤ x`, and otherwise stores
`i + count - 1` where `count` is the number of breakpoints `≤ x` (the
conditions are pairwise disjoint, so exactly one assignment fires). -/
lemma goCell_count (x : ℚ) : ∀ (bs : List ℚ), bs.Pairwise (· < ·) →
    ∀ (i acc : ℤ), goCell bs i x acc =
      if bs.countP (fun b => decide (b ≤ x)) = 0 then acc
      else i + (bs.countP (fun b => decide (b ≤ x)) : ℤ) - 1 := by
  intro bs
  induction bs with
  | nil => intro _ i acc; simp [goCell]
  | cons b rest ih =>
    intro hp i acc
    cases rest with
    | nil =>
      by_cases hb : b ≤ x <;> simp [goCell, hb, List.countP_cons]
    | cons b2 r2 =>
      have hcons := List.pairwise_cons.mp hp
      have hp2 : (b2 :: r2).Pairwise (· < ·) := hcons.2
      have hcons2 := List.pairwise_cons.mp hp2
      rw [goCell, ih hp2 (i + 1)]
      by_cases hb : b ≤ x
      · by_cases hx2 : x < b2
        · have hz : (b2 :: r2).countP (fun c => decide (c ≤ x)) = 0 := by
            rw [List.countP_eq_zero]
            intro a ha
            have hb2a : b2 ≤ a := by
              rcases List.mem_cons.mp ha with h | h
              · exact le_of_eq h.symm
              · exact (hcons2.1 a h).le
            simp only [decide_eq_true_iff]
            exact not_le.mpr (lt_of_lt_of_le hx2 hb2a)
          have htot : (b :: b2 :: r2).countP (fun c => decide (c ≤ x)) = 1 := by
            rw [List.countP_cons, hz]
            simp [hb]
          rw [htot, hz]
          simp only [if_pos rfl, hb, hx2, and_true, if_true]
          norm_num
        · have hb2 : b2 ≤ x := not_lt.mp hx2
          have hnz : (b2 :: r2).countP (fun c => decide (c ≤ x)) ≠ 0 := by
            rw [Ne, List.countP_eq_zero]
            push_neg
            exact ⟨b2, List.mem_cons_self b2 r2, by simpa using hb2⟩
          have htot : (b :: b2 :: r2).countP (fun c => decide (c ≤ x)) =
              (b2 :: r2).countP (fun c => decide (c ≤ x)) + 1 := by
            rw [List.countP_cons]
            simp [hb]
          rw [htot, if_neg hnz, if_neg (by omega :
            ¬((b2 :: r2).countP (fun c => decide (c ≤ x)) + 1 = 0))]
          push_cast
          ring
      · have hxb : x < b := not_le.mp hb
        have hz : (b2 :: r2).countP (fun c => decide (c ≤ x)) = 0 := by
          rw [List.countP_eq_zero]
          intro a ha
          have hba : b < a := hcons.1 a ha
          simp only [decide_eq_true_iff]
          exact not_le.mpr (lt_trans hxb hba)
        have htot : (b :: b2 :: r2).countP (fun c => decide (c ≤ x)) = 0 := by
          rw [List.countP_cons, hz]
          simp [hb]
        rw [htot, hz]
        simp [hb]

/-- On a pairwise increasing breakpoint list, the class stored for cell
value `x` is the number of breakpoints `≤ x`. -/
lemma rangeCell_count (bs : List ℚ) (hp : bs.Pairwise (· < ·)) (x : ℚ) :
    rangeCell bs x = (bs.countP (fun b => decide (b ≤ x)) : ℤ) := by
  rw [rangeCell, goCell_count x bs hp 1 0]
  by_cases h : bs.countP (fun b => decide (b ≤ x)) = 0 <;> simp [h]

/-- Conversion `astype(float)` succeeds on an all-numeric map and returns its
values. -/
lemma asFloats_map_num (bs : List ℚ) :
    asFloats (bs.map RMScalar.num) = some bs := by
  induction bs with
  | nil => simp [asFloats]
  | cons b r ih => simp [asFloats, ih]

/-- Every element of a pairwise increasing list is at most its last
element. -/
lemma mem_le_getLast : ∀ (bs : List ℚ) (hne : bs ≠ []),
    bs.Pairwise (· < ·) → ∀ y ∈ bs, y ≤ bs.getLast hne := by
  intro bs
  induction bs with
  | nil => intro hne; exact absurd rfl hne
  | cons b rest ih =>
    intro _ hp y hy
    cases rest with
    | nil =>
      rcases List.mem_cons.mp hy with h | h
      · simp [h]
      · exact absurd h (List.not_mem_nil y)
    | cons b2 r2 =>
      have hcons := List.pairwise_cons.mp hp
      rw [List.getLast_cons (by simp)]
      rcases List.mem_cons.mp hy with h | h
      · subst h
        have h1 : y < b2 := hcons.1 b2 (List.mem_cons_self b2 r2)
        have h2 : b2 ≤ (b2 :: r2).getLast (by simp) :=
          ih (by simp) hcons.2 b2 (List.mem_cons_self b2 r2)
        exact le_of_lt (lt_of_lt_of_le h1 h2)
      · exact ih (by simp) hcons.2 y h

/-- Below the head of a pairwise increasing list, no element is `≤ x`. -/
lemma countP_zero_of_lt_head (b2 : ℚ) (r2 : List ℚ)
    (hp : (b2 :: r2).Pairwise (· < ·)) (x : ℚ) (hx : x < b2) :
    (b2 :: r2).countP (fun c => decide (c ≤ x)) = 0 := by
  rw [List.countP_eq_zero]
  intro a ha
  have hb2a : b2 ≤ a := by
    rcases List.mem_cons.mp ha with h | h
    · exact le_of_eq h.symm
    · exact ((List.pairwise_cons.mp hp).1 a h).le
  simp only [decide_eq_true_iff]
  exact not_le.mpr (lt_of_lt_of_le hx hb2a)

/-- When `b[i] ≤ x < b[i+1]` in a pairwise increasing list, exactly the
first `i+1` breakpoints are `≤ x`. -/
lemma countP_interval : ∀ (bs : List ℚ), bs.Pairwise (· < ·) →
    ∀ (i : ℕ) (hi1 : i < bs.length) (hi2 : i + 1 < bs.length) (x : ℚ),
      bs.get ⟨i, hi1⟩ ≤ x → x < bs.get ⟨i + 1, hi2⟩ →
      bs.countP (fun c => decide (c ≤ x)) = i + 1 := by
  intro bs
  induction bs with
  | nil => intro _ i hi1; simp at hi1
  | cons b rest ih =>
    intro hp i hi1 hi2 x hle hlt
    have hcons := List.pairwise_cons.mp hp
    cases i with
    | zero =>
      cases rest with
      | nil => simp at hi2
      | cons b2 r2 =>
        have hxb2 : x < b2 := hlt
        have hz := countP_zero_of_lt_head b2 r2 hcons.2 x hxb2
        rw [List.countP_cons, hz]
        have hbx : b ≤ x := hle
        simp [hbx]
    | succ k =>
      have hk1 : k < rest.length := Nat.lt_of_succ_lt_succ hi1
      have hk2 : k + 1 < rest.length := Nat.lt_of_succ_lt_succ hi2
      have hle2 : rest.get ⟨k, hk1⟩ ≤ x := hle
      have hlt2 : x < rest.get ⟨k + 1, hk2⟩ := hlt
      have ihr := ih hcons.2 k hk1 hk2 x hle2 hlt2
      have hbx : b ≤ x := by
        have hmem : rest.get ⟨k, hk1⟩ ∈ rest := rest.get_mem k hk1
        exact (lt_of_lt_of_le (hcons.1 _ hmem) hle2).le
      rw [List.countP_cons, ihr]
      simp [hbx]

/-- C1: for every array and strictly increasing breakpoints
`b[0] < ... < b[n-1]`, `apply_range_map` succeeds and returns an array of
the same shape in which a cell of value `x` is 0 when `x < b[0]`, `i+1`
when `b[i] ≤ x < b[i+1]`, and `n` when `x ≥ b[n-1]`; in particular
`apply_range_map([1,5,9,20], [5,10,12])` returns `[0,1,1,3]`. -/
theorem apply_range_map_buckets (bs : List ℚ) (array : List ℚ)
    (hinc : strictlyIncreasingB bs = true) :
    (∃ out : List ℤ,
      apply_range_map array (RangeMapArr.oneD (bs.map RMScalar.num)) =
        Except.ok out ∧
      out.length = array.length ∧
      ∀ (j : ℕ) (hj : j < array.length) (hj2 : j < out.length),
        (∀ hne : bs ≠ [], array.get ⟨j, hj⟩ < bs.head hne →
          out.get ⟨j, hj2⟩ = 0) ∧
        (∀ (i : ℕ) (hi1 : i < bs.length) (hi2 : i + 1 < bs.length),
          bs.get ⟨i, hi1⟩ ≤ array.get ⟨j, hj⟩ →
          array.get ⟨j, hj⟩ < bs.get ⟨i + 1, hi2⟩ →
          out.get ⟨j, hj2⟩ = (i : ℤ) + 1) ∧
        (∀ hne : bs ≠ [], bs.getLast hne ≤ array.get ⟨j, hj⟩ →
          out.get ⟨j, hj2⟩ = (bs.length : ℤ))) ∧
    apply_range_map [1, 5, 9, 20]
        (RangeMapArr.oneD [RMScalar.num 5, RMScalar.num 10, RMScalar.num 12]) =
      Except.ok [0, 1, 1, 3] := by
  constructor
  · refine ⟨array.map (rangeCell bs), ?_, by simp, ?_⟩
    · simp [apply_range_map, asFloats_map_num, hinc]
    · intro j hj hj2
      have hp := strictlyIncreasingB_pairwise bs hinc
      have hget : (array.map (rangeCell bs)).get ⟨j, hj2⟩ =
          rangeCell bs (array.get ⟨j, hj⟩) := by
        simp
      refine ⟨?_, ?_, ?_⟩
      · intro hne hlt
        rw [hget, rangeCell_count bs hp]
        have hz : bs.countP (fun c => decide (c ≤ array.get ⟨j, hj⟩)) = 0 := by
          cases bs with
          | nil => simp
          | cons b rest => exact countP_zero_of_lt_head b rest hp _ hlt
        simp only [hz, Nat.cast_zero]
      · intro i hi1 hi2 hle hlt
        rw [hget, rangeCell_count bs hp,
          countP_interval bs hp i hi1 hi2 _ hle hlt]
        push_cast
        ring
      · intro hne hge
        rw [hget, rangeCell_count bs hp]
        have hlen : bs.countP (fun c => decide (c ≤ array.get ⟨j, hj⟩)) =
            bs.length := by
          rw [List.countP_eq_length]
          intro a ha
          simp only [decide_eq_true_iff]
          exact le_trans (mem_le_getLast bs hne hp a ha) hge
        rw [hlen]
  · with_unfolding_all rfl

/-- Witness for C1 at the spec's own example. -/
theorem apply_range_map_buckets_witness :
    strictlyIncreasingB [5, 10, 12] = true ∧
      apply_range_map [1, 5, 9, 20]
          (RangeMapArr.oneD [RMScalar.num 5, RMScalar.num 10, RMScalar.num 12]) =
        Except.ok [0, 1, 1, 3] :=
  ⟨by with_unfolding_all decide,
    (apply_range_map_buckets [5, 10, 12] [1, 5, 9, 20]
      (by with_unfolding_all decide)).2⟩

/-- C5: every invalid range_map — not reducible to one dimension, not
convertible to floating point, or not strictly increasing — makes
`apply_range_map` raise `ValidationError` with no output computed, and
the input array is not read: the very same result is produced for every
array, and no array is ever returned or modified. -/
theorem apply_range_map_validation (range_map : RangeMapArr) (array : List ℚ)
    (hbad : isMultiDim range_map = true ∨ notAllFloats range_map = true ∨
      notStrictIncr range_map = true) :
    (∃ msg, apply_range_map array range_map = Except.error msg) ∧
      ∀ array2 : List ℚ,
        apply_range_map array2 range_map = apply_range_map array range_map := by
  cases range_map with
  | multiD rows => exact ⟨⟨_, rfl⟩, fun _ => rfl⟩
  | oneD elems =>
    rcases hbad with h | h | h
    · simp [isMultiDim] at h
    · have hnone : asFloats elems = none := by
        simpa [notAllFloats, Option.isNone_iff_eq_none] using h
      exact ⟨⟨"range_map must be a list of floats",
          by simp [apply_range_map, hnone]⟩,
        fun array2 => by simp [apply_range_map, hnone]⟩
    · cases haf : asFloats elems with
      | none =>
        exact ⟨⟨"range_map must be a list of floats",
            by simp [apply_range_map, haf]⟩,
          fun array2 => by simp [apply_range_map, haf]⟩
      | some bs =>
        have hns : strictlyIncreasingB bs = false := by
          simpa [notStrictIncr, haf] using h
        exact ⟨⟨"range_map must be a list or ordered floats with no repetitions",
            by simp [apply_range_map, haf, hns]⟩,
          fun array2 => by simp [apply_range_map, haf, hns]⟩

/-- Witness for C5 at the spec's non-increasing example `[5, 3, 10]`. -/
theorem apply_range_map_validation_witness :
    (∃ msg, apply_range_map [1, 2]
        (RangeMapArr.oneD [RMScalar.num 5, RMScalar.num 3, RMScalar.num 10]) =
      Except.error msg) ∧
      ∀ array2 : List ℚ,
        apply_range_map array2
            (RangeMapArr.oneD [RMScalar.num 5, RMScalar.num 3, RMScalar.num 10]) =
          apply_range_map [1, 2]
            (RangeMapArr.oneD [RMScalar.num 5, RMScalar.num 3, RMScalar.num 10]) :=
  apply_range_map_validation
    (RangeMapArr.oneD [RMScalar.num 5, RMScalar.num 3, RMScalar.num 10]) [1, 2]
    (Or.inr (Or.inr (by with_unfolding_all decide)))

/-- C10: the empty range_map passes all three validation checks and maps
every cell of every array to class 0, preserving the shape. -/
theorem apply_range_map_empty_map (array : List ℚ) :
    apply_range_map array (RangeMapArr.oneD []) =
      Except.ok (array.map (fun _ => (0 : ℤ))) ∧
    (array.map (fun _ => (0 : ℤ))).length = array.length := by
  exact ⟨rfl, by simp⟩

/-! ## Lemmas about the ValueMapper -/

/-- The assignment loop never touches a cell whose value is not a key of
the map. -/
lemma valueMapCell_foldl_skip (ival x : ℤ) : ∀ (entries : List (ℤ × ℤ)) (acc : ℤ),
    x ∉ keysOf entries →
    entries.foldl
      (fun c kv => if kv.2 = ival then c else if x = kv.1 then kv.2 else c)
      acc = acc := by
  intro entries
  induction entries with
  | nil => intro acc _; rfl
  | cons kv rest ih =>
    intro acc hx
    have hxk : x ≠ kv.1 := by
      intro he
      exact hx (by simp [keysOf, he])
    have hxr : x ∉ keysOf rest := by
      intro hm
      exact hx (by simp [keysOf] at hm ⊢; exact Or.inr hm)
    rw [List.foldl_cons]
    by_cases hv : kv.2 = ival <;> simp [hv, hxk, ih _ hxr]

/-- A cell whose value has no entry in the map is left at `init_val`. -/
lemma valueMapCell_unmapped (entries : List (ℤ × ℤ)) (ival x : ℤ)
    (hx : x ∉ keysOf entries) : valueMapCell entries ival x = ival :=
  valueMapCell_foldl_skip ival x entries ival hx

/-- C2 counterexample: on `arr = [0,1,2,3]` with list value_map `[1,3]`,
`apply_value_map` does not return `[0,1,3,3]` (the cell holding 3 has no
entry in the position-keyed map `{0:0, 1:1, 2:3}` and becomes
`init_val = 0`). -/
theorem apply_value_map_list_fixture_cex :
    (apply_value_map [0, 1, 2, 3] (ValueMapInput.list [1, 3])).1 ≠
      [0, 1, 3, 3] := by
  decide

/-- C2 (amended): on `arr = [0,1,2,3]` with list value_map `[1,3]`, the
list is sorted, 0 is prepended, the position-keyed map is
`{0:0, 1:1, 2:3}` with `init_val = 0`, so cells equal to 1 become 1,
cells equal to 2 become 3, and all other cells (including the cell
holding 3) become 0: the result is `[0,1,3,0]`. -/
theorem apply_value_map_list_fixture :
    apply_value_map [0, 1, 2, 3] (ValueMapInput.list [1, 3]) =
      ([0, 1, 3, 0], ValueMapInput.list [1, 3]) := by
  decide

/-- C3: for every integer dict, `apply_value_map` inserts the entry
`0 ↦ 0` exactly when 0 is neither a key nor a value (and leaves the dict
unresolved otherwise); `init_val` is 0 when the resolved map sends key 0
to 0 and otherwise is the resolved map's first key in iteration order;
every cell whose value has no entry in the resolved map becomes
`init_val`; and with value_map `{1: 5}` cells equal to 1 become 5 and
every other cell becomes 0. -/
theorem apply_value_map_dict_defaults (d : List (ℤ × ℤ)) (array : List ℤ) :
    ((0 : ℤ) ∉ keysOf d → (0 : ℤ) ∉ valsOf d →
      resolveDict d = d ++ [(0, 0)]) ∧
    ((0 : ℤ) ∈ keysOf d ∨ (0 : ℤ) ∈ valsOf d → resolveDict d = d) ∧
    ((resolveDict d).lookup 0 = some 0 → initValOf (resolveDict d) = 0) ∧
    ((resolveDict d).lookup 0 ≠ some 0 →
      initValOf (resolveDict d) = firstKey (resolveDict d)) ∧
    (∀ (j : ℕ) (hj : j < array.length),
      array.get ⟨j, hj⟩ ∉ keysOf (resolveDict d) →
      (apply_value_map array (ValueMapInput.dict d)).1.getD j 0 =
        initValOf (resolveDict d)) ∧
    (apply_value_map array (ValueMapInput.dict [(1, 5)])).1 =
      array.map (fun x => if x = 1 then 5 else 0) := by
  refine ⟨?_, ?_, ?_, ?_, ?_, ?_⟩
  · intro h0k h0v
    rw [resolveDict, if_neg]
    push_neg
    exact ⟨h0k, h0v⟩
  · intro h0
    rw [resolveDict, if_pos h0]
  · intro hl
    rw [initValOf, if_pos hl]
  · intro hl
    rw [initValOf, if_neg hl]
  · intro j hj hmem
    have harr : (apply_value_map array (ValueMapInput.dict d)).1 =
        array.map (valueMapCell (resolveDict d) (initValOf (resolveDict d))) :=
      rfl
    rw [harr, List.getD_eq_getElem _ _ (by simpa using hj), List.getElem_map]
    exact valueMapCell_unmapped _ _ _ (by simpa using hmem)
  · have hone : apply_value_map array (ValueMapInput.dict [(1, 5)]) =
        (array.map (valueMapCell [(1, 5), (0, 0)] 0),
          ValueMapInput.dict [(1, 5), (0, 0)]) := rfl
    rw [hone]
    simp only []
    apply List.map_congr_left
    intro x _
    by_cases hx : x = 1 <;> simp [valueMapCell, hx]

/-- Witness for C3 at the dict `{1: 0}` and array `[5]`: 0 is already a
value, so nothing is inserted; key 0 is absent, so `init_val` is the
first key 1; and the unmapped cell 5 becomes that `init_val`. -/
theorem apply_value_map_dict_defaults_witness :
    resolveDict [(1, 0)] = [(1, 0)] ∧
      initValOf (resolveDict [(1, 0)]) = firstKey (resolveDict [(1, 0)]) ∧
      (apply_value_map [5] (ValueMapInput.dict [(1, 0)])).1.getD 0 0 =
        initValOf (resolveDict [(1, 0)]) :=
  ⟨(apply_value_map_dict_defaults [(1, 0)] [5]).2.1 (by decide),
    (apply_value_map_dict_defaults [(1, 0)] [5]).2.2.2.1 (by decide),
    (apply_value_map_dict_defaults [(1, 0)] [5]).2.2.2.2.1 0 (by decide)
      (by decide)⟩

/-- C8: when 0 is neither a key nor a value of the caller's dict,
`apply_value_map` writes the entry `0 ↦ 0` into that very dict: after the
call the caller's dict has a key it did not have before.  (The input
array is never written to: the result is a freshly built list.) -/
theorem apply_value_map_dict_mutation (d : List (ℤ × ℤ)) (array : List ℤ)
    (h0k : (0 : ℤ) ∉ keysOf d) (h0v : (0 : ℤ) ∉ valsOf d) :
    (apply_value_map array (ValueMapInput.dict d)).2 =
      ValueMapInput.dict (d ++ [(0, 0)]) ∧
    (0 : ℤ) ∈ keysOf (d ++ [(0, 0)]) ∧
    (apply_value_map array (ValueMapInput.dict d)).2 ≠
      ValueMapInput.dict d := by
  have hres : resolveDict d = d ++ [(0, 0)] := by
    rw [resolveDict, if_neg]
    push_neg
    exact ⟨h0k, h0v⟩
  have hsnd : (apply_value_map array (ValueMapInput.dict d)).2 =
      ValueMapInput.dict (resolveDict d) := rfl
  refine ⟨by rw [hsnd, hres], by simp [keysOf], ?_⟩
  rw [hsnd, hres]
  intro heq
  have hlen := congrArg List.length (ValueMapInput.dict.inj heq)
  simp at hlen

/-- Witness for C8: dict `{3: 7}` gains the key 0. -/
theorem apply_value_map_dict_mutation_witness :
    (apply_value_map [1] (ValueMapInput.dict [(3, 7)])).2 =
      ValueMapInput.dict [(3, 7), (0, 0)] ∧
      (apply_value_map [1] (ValueMapInput.dict [(3, 7)])).2 ≠
        ValueMapInput.dict [(3, 7)] :=
  ⟨(apply_value_map_dict_mutation [(3, 7)] [1] (by decide) (by decide)).1,
    (apply_value_map_dict_mutation [(3, 7)] [1] (by decide) (by decide)).2.2⟩

/-! ## Lemmas about the GeometryHasher -/

/-- A number below `16 ^ k` has at most `k` hexadecimal digits. -/
lemma toHexDigitsAux_length : ∀ (fuel k n : ℕ), n < 16 ^ k →
    (toHexDigitsAux fuel n).length ≤ k := by
  intro fuel
  induction fuel with
  | zero => intro k n _; simp [toHexDigitsAux]
  | succ f ih =>
    intro k n hn
    by_cases h0 : n = 0
    · simp [toHexDigitsAux, h0]
    · cases k with
      | zero => exact absurd (by omega : n = 0) h0
      | succ k2 =>
        have hdiv : n / 16 < 16 ^ k2 := by
          have hlt : n < 16 * 16 ^ k2 := by
            rw [← pow_succ']
            exact hn
          exact Nat.div_lt_of_lt_mul hlt
        have hrec := ih k2 (n / 16) hdiv
        simp only [toHexDigitsAux, h0, if_false, List.length_append,
          List.length_cons, List.length_nil]
        omega

/-- Hex digits of values below 16 are lowercase hex characters. -/
lemma hexDigit_hex (m : ℕ) (hm : m < 16) :
    isLowerHexDigit (hexDigit m) = true := by
  interval_cases m <;> decide

/-- Every character produced by the hex rendering is a lowercase hex
character. -/
lemma toHexDigitsAux_hex : ∀ (fuel n : ℕ),
    (toHexDigitsAux fuel n).all isLowerHexDigit = true := by
  intro fuel
  induction fuel with
  | zero => intro n; rfl
  | succ f ih =>
    intro n
    by_cases h0 : n = 0
    · simp [toHexDigitsAux, h0]
    · simp only [toHexDigitsAux, h0, if_false, List.all_append,
        Bool.and_eq_true, ih]
      refine ⟨trivial, ?_⟩
      simp only [List.all_cons, List.all_nil, Bool.and_true]
      exact hexDigit_hex (n % 16) (Nat.mod_lt n (by norm_num))

/-- Python's `hex` of a value below `16 ^ 13` has at most 13 characters. -/
lemma toHexStr_length_le (k : ℕ) (hk : k < 16 ^ 13) :
    (toHexStr k).length ≤ 13 := by
  rw [toHexStr]
  by_cases h0 : k = 0
  · rw [if_pos h0]
    decide
  · rw [if_neg h0]
    exact toHexDigitsAux_length k 13 k hk

/-- All characters of `toHexStr` are lowercase hex characters. -/
lemma toHexStr_hex (k : ℕ) : (toHexStr k).data.all isLowerHexDigit = true := by
  rw [toHexStr]
  by_cases h0 : k = 0
  · rw [if_pos h0]
    decide
  · rw [if_neg h0]
    exact toHexDigitsAux_hex k k

/-- Python's `zfill(13)` of a string of at most 13 characters has exactly 13. -/
lemma zfill13_length (s : String) (hs : s.length ≤ 13) :
    (zfill13 s).length = 13 := by
  show (List.replicate (13 - s.length) '0' ++ s.data).length = 13
  rw [List.length_append, List.length_replicate]
  have h2 : s.data.length = s.length := rfl
  omega

/-- Python's `zfill(13)` preserves "all characters are lowercase hex". -/
lemma zfill13_all (s : String) (hs : s.data.all isLowerHexDigit = true) :
    (zfill13 s).data.all isLowerHexDigit = true := by
  show (List.replicate (13 - s.length) '0' ++ s.data).all isLowerHexDigit = true
  rw [List.all_append, Bool.and_eq_true]
  refine ⟨?_, hs⟩
  rw [List.all_eq_true]
  intro c hc
  have hc0 : c = '0' := List.eq_of_mem_replicate hc
  subst hc0
  decide

/-- C7: `get_regionlist_hash` hashes every geometry in order with
`get_region_hash`, joins the hashes with single spaces, and applies the
same sha256 / mod `10^15` / hex / pad-to-13 procedure to the joined
string; the result is always a 13-character lowercase hexadecimal
string. -/
theorem get_regionlist_hash_correct (regionlist : List Geometry) :
    get_regionlist_hash regionlist = hash_region_list_spec regionlist ∧
    (get_regionlist_hash regionlist).length = 13 ∧
    (get_regionlist_hash regionlist).data.all isLowerHexDigit = true := by
  have hk : sha256Nat (strBytes (String.intercalate " "
      (regionlist.map get_region_hash))) % 10 ^ 15 < 10 ^ 15 :=
    Nat.mod_lt _ (by norm_num)
  have hk16 : sha256Nat (strBytes (String.intercalate " "
      (regionlist.map get_region_hash))) % 10 ^ 15 < 16 ^ 13 :=
    lt_of_lt_of_le hk (by norm_num)
  exact ⟨rfl, zfill13_length _ (toHexStr_length_le _ hk16),
    zfill13_all _ (toHexStr_hex _)⟩

/-- C9: `get_region_hash` depends only on the envelope boundary
coordinates rounded to 5 decimals: geometries with the same rounded
envelope hash identically, whatever their actual boundaries. -/
theorem get_region_hash_envelope_only (g1 g2 : Geometry)
    (henv : roundedEnv g1 = roundedEnv g2) :
    get_region_hash g1 = get_region_hash g2 := by
  simp only [get_region_hash, henv]

/-- Witness for C9: a unit square and a triangle with the same bounding
box (different boundary shape and vertex count) hash identically. -/
theorem get_region_hash_envelope_only_witness :
    roundedEnv (Geometry.single [(0, 0), (1, 0), (1, 1), (0, 1)]) =
        roundedEnv (Geometry.single [(0, 0), (1, 0), (1, 1)]) ∧
      get_region_hash (Geometry.single [(0, 0), (1, 0), (1, 1), (0, 1)]) =
        get_region_hash (Geometry.single [(0, 0), (1, 0), (1, 1)]) :=
  ⟨by with_unfolding_all decide,
    get_region_hash_envelope_only _ _ (by with_unfolding_all decide)⟩

set_option maxRecDepth 40000 in
/-- C4 counterexample: translating a geometry by `(2e-7, 0)` — far below
the claimed `0.5e-5 = 1/200000` threshold — changes `get_region_hash`
when a coordinate (here `x = 0.0000049`) crosses a 5-decimal rounding
boundary. -/
theorem get_region_hash_translation_cex :
    |(1 / 5000000 : ℚ)| < 1 / 200000 ∧ |(0 : ℚ)| < 1 / 200000 ∧
      get_region_hash
          (translateGeom
            (Geometry.single
              [(49 / 10000000, 0), (1, 0), (1, 1), (49 / 10000000, 1)])
            (1 / 5000000) 0) ≠
        get_region_hash
          (Geometry.single
            [(49 / 10000000, 0), (1, 0), (1, 1), (49 / 10000000, 1)]) := by
  refine ⟨by with_unfolding_all decide, by with_unfolding_all decide, ?_⟩
  with_unfolding_all decide

/-- C4 (amended): `get_region_hash` is invariant under a translation
exactly when the translation leaves every envelope boundary coordinate's
5-decimal rounding unchanged; a sub-`0.5e-5` translation that moves a
coordinate across a rounding boundary changes the hash. -/
theorem get_region_hash_translation_inv (g : Geometry) (tx ty : ℚ)
    (hpres : roundedEnv (translateGeom g tx ty) = roundedEnv g) :
    get_region_hash (translateGeom g tx ty) = get_region_hash g := by
  simp only [get_region_hash, hpres]

/-- Witness for the amended C4: translating the unit square by
`(2e-6, 0)` preserves every rounded coordinate and hence the hash. -/
theorem get_region_hash_translation_inv_witness :
    roundedEnv (translateGeom
        (Geometry.single [(0, 0), (1, 0), (1, 1), (0, 1)]) (1 / 500000) 0) =
        roundedEnv (Geometry.single [(0, 0), (1, 0), (1, 1), (0, 1)]) ∧
      get_region_hash (translateGeom
          (Geometry.single [(0, 0), (1, 0), (1, 1), (0, 1)]) (1 / 500000) 0) =
        get_region_hash (Geometry.single [(0, 0), (1, 0), (1, 1), (0, 1)]) :=
  ⟨by with_unfolding_all decide,
    get_region_hash_translation_inv _ _ _ (by with_unfolding_all decide)⟩

/-! ## The MaskRasterizer -/

/-- The rasterization grid has the requested shape and holds only 0s and
1s. -/
lemma rasterize_shape (pols : List Ring) (hgt wid : ℕ) :
    (rasterize pols hgt wid).length = hgt ∧
      ∀ row ∈ rasterize pols hgt wid,
        row.length = wid ∧ ∀ v ∈ row, v = 0 ∨ v = 1 := by
  refine ⟨by simp [rasterize], ?_⟩
  intro row hrow
  rw [rasterize, List.mem_map] at hrow
  obtain ⟨i, _, hrow⟩ := hrow
  subst hrow
  refine ⟨by simp, ?_⟩
  intro v hv
  rw [List.mem_map] at hv
  obtain ⟨j, _, hv⟩ := hv
  by_cases hc : pols.any
      (fun p => pointInPoly p ((j : ℚ) + 1 / 2) ((i : ℚ) + 1 / 2)) = true
  · rw [if_pos hc] at hv
    exact Or.inr hv.symm
  · rw [if_neg hc] at hv
    exact Or.inl hv.symm

/-- C6: for a geometry with at least one part, each part with at least 3
points and non-zero extent on both axes, and positive raster dimensions,
`get_binary_mask` returns a grid whose shape is exactly
`raster_shape[:2]` and whose values are all 0 or 1 (overlapping parts
saturate at 1). -/
theorem get_binary_mask_shape_values (geometry : Geometry) (hgt wid : ℕ)
    (rest : List ℕ)
    (_hparts : geomParts geometry ≠ [])
    (_hpts : ∀ p ∈ geomParts geometry, 3 ≤ p.length)
    (_hxext : qmin ((allCoords geometry).map Prod.fst) ≠
      qmax ((allCoords geometry).map Prod.fst))
    (_hyext : qmin ((allCoords geometry).map Prod.snd) ≠
      qmax ((allCoords geometry).map Prod.snd))
    (_hh : 0 < hgt) (_hw : 0 < wid) :
    (get_binary_mask geometry (hgt :: wid :: rest)).length = hgt ∧
      ∀ row ∈ get_binary_mask geometry (hgt :: wid :: rest),
        row.length = wid ∧ ∀ v ∈ row, v = 0 ∨ v = 1 :=
  rasterize_shape _ hgt wid

/-- Witness for C6 at a concrete triangle on a 2×3 grid. -/
theorem get_binary_mask_shape_values_witness :
    (get_binary_mask (Geometry.single [(0, 0), (1, 0), (1, 1)])
        [2, 3]).length = 2 ∧
      ∀ row ∈ get_binary_mask (Geometry.single [(0, 0), (1, 0), (1, 1)]) [2, 3],
        row.length = 3 ∧ ∀ v ∈ row, v = 0 ∨ v = 1 :=
  get_binary_mask_shape_values (Geometry.single [(0, 0), (1, 0), (1, 1)])
    2 3 [] (by decide) (by decide) (by with_unfolding_all decide)
    (by with_unfolding_all decide) (by decide) (by decide)

end Geetiles
